import Mathlib

/-!
Verification of the Meshtastic Heltec V3 network driver repository.

The repository ships a kernel module (`kernel/heltec.c`) and documents a
user-space daemon (`daemon/main.py`) that bridges a serial Meshtastic link
to a TUN interface.  The daemon's source is not part of the tree; its
behaviour (packet codec, incremental deframer, node address table,
discovery protocol, bridge dispatcher) is modelled here from the
specification's words.  The kernel module is embedded from its C source.
-/

namespace MeshDriver

/-! ## List utilities for the text-delimited wire format -/

/-- Split a character list at the first occurrence of `c`: returns the part
before and the part after, or `none` when `c` does not occur. -/
def splitAtChar (c : Char) : List Char → Option (List Char × List Char)
  | [] => none
  | a :: t =>
    if a = c then some ([], t)
    else (splitAtChar c t).map (fun p => (a :: p.1, p.2))

/-- Split a character list on every occurrence of `c` (the pieces never
contain `c`; splitting the empty list gives one empty piece). -/
def splitOnChar (c : Char) : List Char → List (List Char)
  | [] => [[]]
  | a :: t =>
    if a = c then [] :: splitOnChar c t
    else
      match splitOnChar c t with
      | [] => [[a]]
      | p :: ps => (a :: p) :: ps

/-- Join character lists with a single separator character in between. -/
def intercalChar (c : Char) : List (List Char) → List Char
  | [] => []
  | [x] => x
  | x :: xs => x ++ c :: intercalChar c xs

/-- Index of the first occurrence of the frame marker character in a list. -/
def findBang : List Char → Option Nat
  | [] => none
  | a :: t => if a = '!' then some 0 else (findBang t).map (· + 1)

theorem splitAtChar_append {c : Char} {a : List Char} (b : List Char)
    (h : c ∉ a) : splitAtChar c (a ++ c :: b) = some (a, b) := by
  induction a with
  | nil => simp [splitAtChar]
  | cons x xs ih =>
    have hx : x ≠ c := fun hxc => h (hxc ▸ List.mem_cons_self x xs)
    have hxs : c ∉ xs := fun hm => h (List.mem_cons_of_mem x hm)
    simp [splitAtChar, hx, ih hxs]

theorem splitAtChar_eq_some {c : Char} :
    ∀ {l a b : List Char}, splitAtChar c l = some (a, b) →
      l = a ++ c :: b ∧ c ∉ a := by
  intro l
  induction l with
  | nil => intro a b h; simp [splitAtChar] at h
  | cons x xs ih =>
    intro a b h
    by_cases hx : x = c
    · simp [splitAtChar, hx] at h
      subst hx
      obtain ⟨ha, hb⟩ := h
      subst ha; subst hb
      exact ⟨rfl, by simp⟩
    · simp only [splitAtChar, hx, if_false, Option.map_eq_some'] at h
      obtain ⟨⟨p, q⟩, hpq, hfe⟩ := h
      obtain ⟨hl, hc⟩ := ih hpq
      injection hfe with h1 h2
      subst h1; subst h2
      refine ⟨by simp [hl], ?_⟩
      intro hm
      rcases List.mem_cons.mp hm with h1 | h2
      · exact hx h1.symm
      · exact hc h2

theorem splitOnChar_ne_nil (c : Char) (l : List Char) :
    splitOnChar c l ≠ [] := by
  induction l with
  | nil => simp [splitOnChar]
  | cons x xs ih =>
    by_cases hx : x = c
    · simp [splitOnChar, hx]
    · simp only [splitOnChar, hx, if_false]
      cases h : splitOnChar c xs with
      | nil => simp
      | cons p ps => simp

theorem splitOnChar_singleton {c : Char} {a : List Char} (h : c ∉ a) :
    splitOnChar c a = [a] := by
  induction a with
  | nil => simp [splitOnChar]
  | cons x xs ih =>
    have hx : x ≠ c := fun hxc => h (hxc ▸ List.mem_cons_self x xs)
    have hxs : c ∉ xs := fun hm => h (List.mem_cons_of_mem x hm)
    simp [splitOnChar, hx, ih hxs]

theorem splitOnChar_append {c : Char} {a : List Char} (b : List Char)
    (h : c ∉ a) : splitOnChar c (a ++ c :: b) = a :: splitOnChar c b := by
  induction a with
  | nil => simp [splitOnChar]
  | cons x xs ih =>
    have hx : x ≠ c := fun hxc => h (hxc ▸ List.mem_cons_self x xs)
    have hxs : c ∉ xs := fun hm => h (List.mem_cons_of_mem x hm)
    have hrw := ih hxs
    simp only [List.cons_append, splitOnChar, hx, if_false]
    rw [show xs.append (c :: b) = xs ++ c :: b from rfl, hrw]

theorem intercalChar_splitOnChar (c : Char) (l : List Char) :
    intercalChar c (splitOnChar c l) = l := by
  induction l with
  | nil => simp [splitOnChar, intercalChar]
  | cons x xs ih =>
    by_cases hx : x = c
    · subst hx
      simp only [splitOnChar, if_pos rfl]
      cases h : splitOnChar x xs with
      | nil => exact absurd h (splitOnChar_ne_nil x xs)
      | cons p ps =>
        rw [h] at ih
        simp [intercalChar, ih]
    · simp only [splitOnChar, hx, if_false]
      cases h : splitOnChar c xs with
      | nil => exact absurd h (splitOnChar_ne_nil c xs)
      | cons p ps =>
        rw [h] at ih
        cases ps with
        | nil => simp_all [intercalChar]
        | cons q qs => simp_all [intercalChar]

theorem splitOnChar_intercalChar {c : Char} :
    ∀ {ps : List (List Char)}, ps ≠ [] →
      (∀ p ∈ ps, c ∉ p) → splitOnChar c (intercalChar c ps) = ps := by
  intro ps
  induction ps with
  | nil => intro h; exact absurd rfl h
  | cons p ps ih =>
    intro _ hclean
    cases ps with
    | nil =>
      simp only [intercalChar]
      exact splitOnChar_singleton (hclean p (by simp))
    | cons q qs =>
      have hp : c ∉ p := hclean p (by simp)
      have hrest : ∀ r ∈ q :: qs, c ∉ r := fun r hr =>
        hclean r (List.mem_cons_of_mem p hr)
      have : intercalChar c (p :: q :: qs) = p ++ c :: intercalChar c (q :: qs) := rfl
      rw [this, splitOnChar_append _ hp, ih (by simp) hrest]

theorem findBang_append {a : List Char} (b : List Char) (h : '!' ∉ a) :
    findBang (a ++ '!' :: b) = some a.length := by
  induction a with
  | nil => simp [findBang]
  | cons x xs ih =>
    have hx : x ≠ '!' := fun hxc => h (hxc ▸ List.mem_cons_self x xs)
    have hxs : '!' ∉ xs := fun hm => h (List.mem_cons_of_mem x hm)
    simp [findBang, hx, ih hxs]

/-! ## Packet Codec data model

Modelled from the spec: the daemon source `daemon/main.py` is not in the
tree; the MeshFrame record and the wire format
`!<destination>:<source>:<packet_type>|<metadata>|<payload>!` are taken
from spec sections 3 and 6 (preamble `!`, field separator `:`,
header/payload separator `|`, terminator `!`). -/

/-- Closed packet-type variant from the spec's data model. -/
inductive PacketType
  | DATA
  | NODE_INFO
  | TEXT
deriving DecidableEq, Repr

/-- Wire rendering of a packet type tag. -/
def renderType : PacketType → List Char
  | .DATA => "DATA".toList
  | .NODE_INFO => "NODE_INFO".toList
  | .TEXT => "TEXT".toList

/-- Parse a packet type tag; unknown tags are a decode failure. -/
def parseType (l : List Char) : Option PacketType :=
  if l = "DATA".toList then some .DATA
  else if l = "NODE_INFO".toList then some .NODE_INFO
  else if l = "TEXT".toList then some .TEXT
  else none

/-- Modelled from the spec: the on-wire unit (spec section 3), with fields
destination, source, packet_type, ordered metadata and opaque payload. -/
structure MeshFrame where
  destination : List Char
  source : List Char
  packetType : PacketType
  metadata : List (List Char × List Char)
  payload : List Char
deriving DecidableEq, Repr

/-- Characters reserved by the frame layer: preamble/terminator `!`, field
separator `:` and header/payload separator `|`. -/
def reserved (c : Char) : Bool :=
  c == '!' || c == ':' || c == '|'

/-- Characters reserved inside the structured-metadata block: the frame
delimiters plus the block's own `=`, `;` and braces. -/
def metaReserved (c : Char) : Bool :=
  reserved c || c == '=' || c == ';' || c == '\x7b' || c == '\x7d'

/-- A header field is valid when it contains no reserved character. -/
def fieldOK (l : List Char) : Bool :=
  l.all (fun c => !reserved c)

/-- Metadata is valid when every key and value avoids the metadata-reserved
characters. -/
def metaOK (m : List (List Char × List Char)) : Bool :=
  m.all (fun p => p.1.all (fun c => !metaReserved c) &&
                  p.2.all (fun c => !metaReserved c))

/-- A payload is clean when it contains no reserved unescaped character. -/
def payloadClean (l : List Char) : Bool :=
  l.all (fun c => !reserved c)

/-- One metadata pair rendered as `key=value`. -/
def pairChars (p : List Char × List Char) : List Char :=
  p.1 ++ '=' :: p.2

/-- Modelled from the spec: the compact key/value text block carrying the
structured metadata — `key=value` pairs joined by `;` inside braces. -/
def serializeMeta (m : List (List Char × List Char)) : List Char :=
  '\x7b' :: intercalChar ';' (m.map pairChars) ++ ['\x7d']

/-- Parse the pieces of a metadata block: each piece must split at `=`. -/
def parsePieces : List (List Char) → Option (List (List Char × List Char))
  | [] => some []
  | p :: ps =>
    match splitAtChar '=' p, parsePieces ps with
    | some kv, some rest => some (kv :: rest)
    | _, _ => none

/-- Parse the interior of a metadata block (between the braces). -/
def parsePairs (mid : List Char) : Option (List (List Char × List Char)) :=
  if mid = [] then some [] else parsePieces (splitOnChar ';' mid)

/-- Parse a metadata block: an opening brace, pairs, a closing brace. -/
def parseMeta (l : List Char) : Option (List (List Char × List Char)) :=
  match l with
  | [] => none
  | c :: rest =>
    if c = '\x7b' ∧ rest.getLast? = some '\x7d' then parsePairs rest.dropLast
    else none

/-- The frame content between the preamble and the terminator:
`destination:source:packet_type|metadata|payload`. -/
def contentOf (f : MeshFrame) : List Char :=
  f.destination ++ ':' :: f.source ++ ':' :: renderType f.packetType ++
    '|' :: serializeMeta f.metadata ++ '|' :: f.payload

/-- The full wire representation: preamble, content, terminator. -/
def wireOf (f : MeshFrame) : List Char :=
  '!' :: contentOf f ++ ['!']

/-- Errors raised by `encode` (spec section 7: surfaced to the caller). -/
inductive EncodeError
  | invalidField
  | payloadTooLarge
deriving DecidableEq, Repr

/-- Modelled from the spec: `encode(frame) -> bytes` serializes a MeshFrame
into the wire representation, failing with `EncodeError` when a field
contains a delimiter or marker character unescaped or the payload exceeds
the maximum frame size (spec section 4.1). -/
def encode (maxSize : Nat) (f : MeshFrame) : Except EncodeError (List Char) :=
  if !(fieldOK f.destination && fieldOK f.source && metaOK f.metadata) then
    .error .invalidField
  else if maxSize < f.payload.length then
    .error .payloadTooLarge
  else
    .ok (wireOf f)

/-- Parse the content of a frame span (no surrounding markers): header of
exactly three `:`-separated fields, then the metadata block, then the
payload, separated by the first two `|` occurrences. -/
def decodeContent (content : List Char) : Option MeshFrame :=
  match splitAtChar '|' content with
  | none => none
  | some (hdr, rest) =>
    match splitAtChar '|' rest with
    | none => none
    | some (meta, payload) =>
      match splitOnChar ':' hdr with
      | [d, s, pt] =>
        match parseType pt, parseMeta meta with
        | some ty, some m => some ⟨d, s, ty, m, payload⟩
        | _, _ => none
      | _ => none

/-- Modelled from the spec: decode one complete wire frame — a preamble
marker, the content, a terminating marker. -/
def decode (bs : List Char) : Option MeshFrame :=
  match bs with
  | [] => none
  | c :: rest =>
    if c = '!' ∧ rest.getLast? = some '!' then decodeContent rest.dropLast
    else none

/-! ## Codec round-trip lemmas -/

theorem pairChars_ne_nil (p : List Char × List Char) : pairChars p ≠ [] := by
  simp [pairChars]

theorem mem_pairChars {c : Char} {p : List Char × List Char}
    (h : c ∈ pairChars p) : c = '=' ∨ c ∈ p.1 ∨ c ∈ p.2 := by
  simp only [pairChars] at h
  rcases List.mem_append.mp h with h1 | h2
  · exact Or.inr (Or.inl h1)
  · rcases List.mem_cons.mp h2 with h3 | h4
    · exact Or.inl h3
    · exact Or.inr (Or.inr h4)

theorem mem_intercalChar {sep c : Char} :
    ∀ {ps : List (List Char)}, c ∈ intercalChar sep ps →
      c = sep ∨ ∃ p ∈ ps, c ∈ p := by
  intro ps
  induction ps with
  | nil => intro h; simp [intercalChar] at h
  | cons x xs ih =>
    intro h
    cases xs with
    | nil =>
      simp only [intercalChar] at h
      exact Or.inr ⟨x, by simp, h⟩
    | cons y ys =>
      have hx : intercalChar sep (x :: y :: ys) =
          x ++ sep :: intercalChar sep (y :: ys) := rfl
      rw [hx] at h
      rcases List.mem_append.mp h with h1 | h2
      · exact Or.inr ⟨x, by simp, h1⟩
      · rcases List.mem_cons.mp h2 with h3 | h4
        · exact Or.inl h3
        · rcases ih h4 with h5 | ⟨p, hp, hc⟩
          · exact Or.inl h5
          · exact Or.inr ⟨p, List.mem_cons_of_mem _ hp, hc⟩

theorem not_mem_of_all_not {pred : Char → Bool} {l : List Char}
    (h : l.all (fun c => !pred c) = true) {c : Char} (hc : pred c = true) :
    c ∉ l := by
  intro hm
  have := List.all_eq_true.mp h c hm
  simp [hc] at this

theorem metaOK_head {p : List Char × List Char}
    {ps : List (List Char × List Char)} (h : metaOK (p :: ps) = true) :
    (p.1.all (fun c => !metaReserved c) = true ∧
     p.2.all (fun c => !metaReserved c) = true) ∧ metaOK ps = true := by
  simp only [metaOK, List.all_cons, Bool.and_eq_true] at h
  exact ⟨h.1, h.2⟩

theorem metaOK_pair {m : List (List Char × List Char)} (hm : metaOK m = true)
    {p : List Char × List Char} (hp : p ∈ m) :
    p.1.all (fun c => !metaReserved c) = true ∧
    p.2.all (fun c => !metaReserved c) = true := by
  have := List.all_eq_true.mp hm p hp
  simp only [Bool.and_eq_true] at this
  exact this

theorem serializeMeta_not_reserved {m : List (List Char × List Char)}
    (hm : metaOK m = true) {c : Char} (hc : c ∈ serializeMeta m) :
    reserved c = false := by
  simp only [serializeMeta] at hc
  rcases List.mem_cons.mp hc with h1 | h2
  · subst h1; decide
  · rcases List.mem_append.mp h2 with h3 | h4
    · rcases mem_intercalChar h3 with h5 | ⟨piece, hpiece, hcp⟩
      · subst h5; decide
      · obtain ⟨p, hpm, hpc⟩ := List.mem_map.mp hpiece
        have hOK := metaOK_pair hm hpm
        subst hpc
        rcases mem_pairChars hcp with he | hin | hin
        · subst he; decide
        · have := List.all_eq_true.mp hOK.1 c hin
          simp only [Bool.not_eq_true'] at this
          simp only [metaReserved, Bool.or_eq_false_iff] at this
          exact this.1.1.1.1
        · have := List.all_eq_true.mp hOK.2 c hin
          simp only [Bool.not_eq_true'] at this
          simp only [metaReserved, Bool.or_eq_false_iff] at this
          exact this.1.1.1.1
    · have : c = '\x7d' := by simpa using h4
      subst this; decide

theorem not_mem_serializeMeta {m : List (List Char × List Char)}
    (hm : metaOK m = true) {c : Char} (hc : reserved c = true) :
    c ∉ serializeMeta m := by
  intro hmem
  have := serializeMeta_not_reserved hm hmem
  rw [this] at hc
  exact Bool.false_ne_true hc

theorem not_mem_of_fieldOK {l : List Char} (h : fieldOK l = true) {c : Char}
    (hc : reserved c = true) : c ∉ l :=
  not_mem_of_all_not h hc

theorem parsePieces_map {m : List (List Char × List Char)}
    (hm : metaOK m = true) : parsePieces (m.map pairChars) = some m := by
  induction m with
  | nil => rfl
  | cons p ps ih =>
    obtain ⟨⟨h1, _⟩, hrest⟩ := metaOK_head hm
    have hk : '=' ∉ p.1 := not_mem_of_all_not h1 (by decide)
    have hsplit : splitAtChar '=' (pairChars p) = some (p.1, p.2) :=
      splitAtChar_append p.2 hk
    simp [parsePieces, hsplit, ih hrest]

theorem semi_not_mem_pairChars {m : List (List Char × List Char)}
    (hm : metaOK m = true) {piece : List Char}
    (hp : piece ∈ m.map pairChars) : ';' ∉ piece := by
  obtain ⟨p, hpm, hpc⟩ := List.mem_map.mp hp
  have hOK := metaOK_pair hm hpm
  subst hpc
  intro hmem
  rcases mem_pairChars hmem with he | hin | hin
  · exact absurd he (by decide)
  · exact not_mem_of_all_not hOK.1 (by decide) hin
  · exact not_mem_of_all_not hOK.2 (by decide) hin

theorem parseMeta_serializeMeta {m : List (List Char × List Char)}
    (hm : metaOK m = true) : parseMeta (serializeMeta m) = some m := by
  have h0 : serializeMeta m =
      '\x7b' :: (intercalChar ';' (m.map pairChars) ++ ['\x7d']) := by
    simp [serializeMeta]
  rw [h0]
  have h1 : parseMeta ('\x7b' :: (intercalChar ';' (m.map pairChars) ++ ['\x7d'])) =
      parsePairs (intercalChar ';' (m.map pairChars)) := by
    simp [parseMeta, List.getLast?_concat, List.dropLast_concat]
  rw [h1]
  cases m with
  | nil => rfl
  | cons p ps =>
    have hne : intercalChar ';' ((p :: ps).map pairChars) ≠ [] := by
      cases ps with
      | nil => simpa [intercalChar] using pairChars_ne_nil p
      | cons q qs =>
        have hx : intercalChar ';' (pairChars p :: pairChars q :: qs.map pairChars) =
            pairChars p ++ ';' :: intercalChar ';' (pairChars q :: qs.map pairChars) := rfl
        simp only [List.map_cons, hx]
        simp [pairChars_ne_nil p]
    unfold parsePairs
    rw [if_neg hne,
      splitOnChar_intercalChar (by simp) (fun piece hp => semi_not_mem_pairChars hm hp),
      parsePieces_map hm]

theorem parseType_renderType (t : PacketType) :
    parseType (renderType t) = some t := by
  cases t <;> rfl

theorem renderType_fieldOK (t : PacketType) : fieldOK (renderType t) = true := by
  cases t <;> decide

theorem renderType_not_reserved (t : PacketType) {c : Char}
    (hc : reserved c = true) : c ∉ renderType t :=
  not_mem_of_all_not (renderType_fieldOK t) hc

theorem pipe_not_mem_hdr {d s rt : List Char} (hd : fieldOK d = true)
    (hs : fieldOK s = true) (hrt : fieldOK rt = true) :
    '|' ∉ d ++ ':' :: s ++ ':' :: rt := by
  intro hmem
  rcases List.mem_append.mp hmem with h1 | h2
  · rcases List.mem_append.mp h1 with h3 | h4
    · exact not_mem_of_fieldOK hd (by decide) h3
    · rcases List.mem_cons.mp h4 with h5 | h6
      · exact absurd h5 (by decide)
      · exact not_mem_of_fieldOK hs (by decide) h6
  · rcases List.mem_cons.mp h2 with h5 | h6
    · exact absurd h5 (by decide)
    · exact not_mem_of_fieldOK hrt (by decide) h6

theorem splitOn_hdr {d s rt : List Char} (hd : fieldOK d = true)
    (hs : fieldOK s = true) (hrt : fieldOK rt = true) :
    splitOnChar ':' (d ++ ':' :: s ++ ':' :: rt) = [d, s, rt] := by
  have h1 : d ++ ':' :: s ++ ':' :: rt = d ++ ':' :: (s ++ ':' :: rt) := by
    simp [List.append_assoc]
  rw [h1, splitOnChar_append _ (not_mem_of_fieldOK hd (by decide)),
    splitOnChar_append _ (not_mem_of_fieldOK hs (by decide)),
    splitOnChar_singleton (not_mem_of_fieldOK hrt (by decide))]

theorem decodeContent_contentOf {f : MeshFrame}
    (hd : fieldOK f.destination = true) (hs : fieldOK f.source = true)
    (hm : metaOK f.metadata = true) :
    decodeContent (contentOf f) = some f := by
  obtain ⟨d, s, ty, m, pl⟩ := f
  simp only at hd hs hm
  have hshape : contentOf ⟨d, s, ty, m, pl⟩ =
      (d ++ ':' :: s ++ ':' :: renderType ty) ++
        '|' :: (serializeMeta m ++ '|' :: pl) := by
    simp [contentOf, List.append_assoc]
  have e1 : splitAtChar '|' (contentOf ⟨d, s, ty, m, pl⟩) =
      some (d ++ ':' :: s ++ ':' :: renderType ty, serializeMeta m ++ '|' :: pl) := by
    rw [hshape]
    exact splitAtChar_append _ (pipe_not_mem_hdr hd hs (renderType_fieldOK ty))
  have e2 : splitAtChar '|' (serializeMeta m ++ '|' :: pl) =
      some (serializeMeta m, pl) :=
    splitAtChar_append _ (not_mem_serializeMeta hm (by decide))
  have e3 : splitOnChar ':' (d ++ ':' :: (s ++ ':' :: renderType ty)) =
      [d, s, renderType ty] := by
    rw [splitOnChar_append _ (not_mem_of_fieldOK hd (by decide)),
      splitOnChar_append _ (not_mem_of_fieldOK hs (by decide)),
      splitOnChar_singleton (not_mem_of_fieldOK (renderType_fieldOK ty) (by decide))]
  simp [decodeContent, e1, e2, e3, parseType_renderType, parseMeta_serializeMeta hm]

theorem decode_wireOf {f : MeshFrame}
    (hd : fieldOK f.destination = true) (hs : fieldOK f.source = true)
    (hm : metaOK f.metadata = true) :
    decode (wireOf f) = some f := by
  have h0 : wireOf f = '!' :: (contentOf f ++ ['!']) := by simp [wireOf]
  rw [h0]
  simp [decode, List.getLast?_concat, List.dropLast_concat,
    decodeContent_contentOf hd hs hm]

/-- Claim C1: for every valid MeshFrame whose payload contains no reserved
unescaped characters and fits the maximum frame size, encoding succeeds and
decoding the encoded bytes yields the frame back, decode(encode(f)) == f. -/
theorem encode_decode_roundtrip (maxSize : Nat) (f : MeshFrame)
    (hd : fieldOK f.destination = true) (hs : fieldOK f.source = true)
    (hm : metaOK f.metadata = true) (hp : payloadClean f.payload = true)
    (hlen : f.payload.length ≤ maxSize) :
    encode maxSize f = .ok (wireOf f) ∧ decode (wireOf f) = some f := by
  refine ⟨?_, decode_wireOf hd hs hm⟩
  have hnl : ¬ maxSize < f.payload.length := Nat.not_lt.mpr hlen
  simp [encode, hd, hs, hm, hnl]

/-- Witness for claim C1 at a concrete frame. -/
theorem encode_decode_roundtrip_witness :
    encode 16 (MeshFrame.mk ['a'] ['b'] PacketType.DATA [(['h'], ['2'])] ['p', 'q']) =
      .ok (wireOf (MeshFrame.mk ['a'] ['b'] PacketType.DATA [(['h'], ['2'])] ['p', 'q'])) ∧
    decode (wireOf (MeshFrame.mk ['a'] ['b'] PacketType.DATA [(['h'], ['2'])] ['p', 'q'])) =
      some (MeshFrame.mk ['a'] ['b'] PacketType.DATA [(['h'], ['2'])] ['p', 'q']) :=
  encode_decode_roundtrip 16 _ (by decide) (by decide) (by decide) (by decide)
    (by decide)

/-! ## Decode accepts only the wire layout (inverse direction) -/

theorem renderType_parseType {l : List Char} {t : PacketType}
    (h : parseType l = some t) : renderType t = l := by
  simp only [parseType] at h
  split at h
  · next h1 => injection h with h2; subst h2; rw [h1]; rfl
  · split at h
    · next h1 => injection h with h2; subst h2; rw [h1]; rfl
    · split at h
      · next h1 => injection h with h2; subst h2; rw [h1]; rfl
      · exact absurd h (by simp)

theorem parsePieces_inv :
    ∀ {ps : List (List Char)} {m : List (List Char × List Char)},
      parsePieces ps = some m → m.map pairChars = ps := by
  intro ps
  induction ps with
  | nil =>
    intro m h
    simp only [parsePieces] at h
    injection h with h2
    subst h2
    rfl
  | cons p ps ih =>
    intro m h
    simp only [parsePieces] at h
    cases hsp : splitAtChar '=' p with
    | none => rw [hsp] at h; exact absurd h (by simp)
    | some kv =>
      cases hpp : parsePieces ps with
      | none => rw [hsp, hpp] at h; exact absurd h (by simp)
      | some rest =>
        rw [hsp, hpp] at h
        injection h with h2
        subst h2
        obtain ⟨hl, _⟩ := splitAtChar_eq_some hsp
        simp [pairChars, ← hl, ih hpp]

theorem parsePairs_inv {mid : List Char} {m : List (List Char × List Char)}
    (h : parsePairs mid = some m) :
    intercalChar ';' (m.map pairChars) = mid := by
  unfold parsePairs at h
  by_cases hmid : mid = []
  · rw [if_pos hmid] at h
    injection h with h2
    subst h2
    simp [intercalChar, hmid]
  · rw [if_neg hmid] at h
    rw [parsePieces_inv h, intercalChar_splitOnChar]

theorem parseMeta_inv {l : List Char} {m : List (List Char × List Char)}
    (h : parseMeta l = some m) : serializeMeta m = l := by
  cases l with
  | nil => exact absurd h (by simp [parseMeta])
  | cons c rest =>
    simp only [parseMeta] at h
    split at h
    · next hcond =>
      obtain ⟨hc, hlast⟩ := hcond
      subst hc
      have hdec : rest.dropLast ++ ['\x7d'] = rest :=
        List.dropLast_append_getLast? _ hlast
      rw [serializeMeta, parsePairs_inv h]
      rw [show ('\x7b' :: rest.dropLast) ++ ['\x7d'] =
        '\x7b' :: (rest.dropLast ++ ['\x7d']) from rfl, hdec]
    · exact absurd h (by simp)

theorem decodeContent_inv {content : List Char} {f : MeshFrame}
    (h : decodeContent content = some f) : content = contentOf f := by
  unfold decodeContent at h
  split at h
  · exact absurd h (by simp)
  · next hdr rest heq1 =>
    split at h
    · exact absurd h (by simp)
    · next meta pl heq2 =>
      split at h
      · next d s pt heq3 =>
        split at h
        · next ty m heqty heqm =>
          injection h with h2
          subst h2
          obtain ⟨hc1, _⟩ := splitAtChar_eq_some heq1
          obtain ⟨hc2, _⟩ := splitAtChar_eq_some heq2
          have hhdr : hdr = d ++ ':' :: (s ++ ':' :: pt) := by
            have := intercalChar_splitOnChar ':' hdr
            rw [heq3] at this
            exact this.symm
          rw [hc1, hc2, hhdr, contentOf]
          simp [renderType_parseType heqty, parseMeta_inv heqm,
            List.append_assoc]
        · exact absurd h (by simp)
      · exact absurd h (by simp)

theorem decode_inv {bs : List Char} {f : MeshFrame}
    (h : decode bs = some f) : bs = wireOf f := by
  cases bs with
  | nil => exact absurd h (by simp [decode])
  | cons c rest =>
    simp only [decode] at h
    split at h
    · next hcond =>
      obtain ⟨hc, hlast⟩ := hcond
      subst hc
      have hdec : rest.dropLast ++ ['!'] = rest :=
        List.dropLast_append_getLast? _ hlast
      rw [wireOf, ← decodeContent_inv h]
      rw [show ('!' :: rest.dropLast) ++ ['!'] =
        '!' :: (rest.dropLast ++ ['!']) from rfl, hdec]
    · exact absurd h (by simp)

theorem encode_ok_eq {maxSize : Nat} {f : MeshFrame} {bs : List Char}
    (h : encode maxSize f = .ok bs) : bs = wireOf f := by
  unfold encode at h
  split at h
  · exact absurd h (by simp)
  · split at h
    · exact absurd h (by simp)
    · injection h with h2
      exact h2.symm

/-- Claim C5: encode produces exactly the wire layout
`!destination:source:packet_type|metadata|payload!` — preamble, colon-separated
header, pipes around the metadata block, terminating marker — and decode
accepts exactly this layout. -/
theorem wire_layout_exact :
    (∀ (maxSize : Nat) (f : MeshFrame) (bs : List Char),
      encode maxSize f = .ok bs →
      bs = '!' :: (f.destination ++ ':' :: f.source ++
        ':' :: renderType f.packetType ++ '|' :: serializeMeta f.metadata ++
        '|' :: f.payload) ++ ['!']) ∧
    (∀ (bs : List Char) (f : MeshFrame),
      decode bs = some f →
      bs = '!' :: (f.destination ++ ':' :: f.source ++
        ':' :: renderType f.packetType ++ '|' :: serializeMeta f.metadata ++
        '|' :: f.payload) ++ ['!']) := by
  constructor
  · intro maxSize f bs h
    exact encode_ok_eq h
  · intro bs f h
    exact decode_inv h

/-- Witness for claim C5 at a concrete frame and its wire bytes. -/
theorem wire_layout_exact_witness :
    (['!', 'a', ':', 'b', ':', 'D', 'A', 'T', 'A', '|', '\x7b', '\x7d', '|', 'p', '!'] =
      '!' :: ((['a'] : List Char) ++ ':' :: ['b'] ++
        ':' :: renderType PacketType.DATA ++ '|' :: serializeMeta [] ++
        '|' :: ['p']) ++ ['!']) ∧
    (['!', 'a', ':', 'b', ':', 'D', 'A', 'T', 'A', '|', '\x7b', '\x7d', '|', 'p', '!'] =
      '!' :: ((['a'] : List Char) ++ ':' :: ['b'] ++
        ':' :: renderType PacketType.DATA ++ '|' :: serializeMeta [] ++
        '|' :: ['p']) ++ ['!']) :=
  ⟨wire_layout_exact.1 16 (MeshFrame.mk ['a'] ['b'] PacketType.DATA [] ['p']) _
      (by rfl),
    wire_layout_exact.2 _ (MeshFrame.mk ['a'] ['b'] PacketType.DATA [] ['p'])
      (by rfl)⟩

/-! ## Encode error characterization (claim C7) -/

theorem reserved_iff {c : Char} :
    reserved c = true ↔ c = '!' ∨ c = ':' ∨ c = '|' := by
  simp [reserved, or_assoc]

theorem metaReserved_iff {c : Char} :
    metaReserved c = true ↔
      c = '!' ∨ c = ':' ∨ c = '|' ∨ c = '=' ∨ c = ';' ∨
      c = '\x7b' ∨ c = '\x7d' := by
  simp [metaReserved, reserved, or_assoc]

theorem fieldOK_false_iff {l : List Char} :
    fieldOK l = false ↔ ∃ c ∈ l, c = '!' ∨ c = ':' ∨ c = '|' := by
  rw [fieldOK, List.all_eq_false]
  constructor
  · rintro ⟨c, hcl, hc⟩
    refine ⟨c, hcl, reserved_iff.mp ?_⟩
    simpa using hc
  · rintro ⟨c, hcl, hc⟩
    exact ⟨c, hcl, by simp [reserved_iff.mpr hc]⟩

theorem metaOK_false_iff {m : List (List Char × List Char)} :
    metaOK m = false ↔
      ∃ p ∈ m, ∃ c, (c ∈ p.1 ∨ c ∈ p.2) ∧
        (c = '!' ∨ c = ':' ∨ c = '|' ∨ c = '=' ∨ c = ';' ∨
         c = '\x7b' ∨ c = '\x7d') := by
  rw [metaOK, List.all_eq_false]
  constructor
  · rintro ⟨p, hpm, hp⟩
    rw [Bool.not_eq_true, Bool.and_eq_false_iff] at hp
    rcases hp with hp | hp
    · obtain ⟨c, hcl, hc⟩ := List.all_eq_false.mp hp
      refine ⟨p, hpm, c, Or.inl hcl, metaReserved_iff.mp ?_⟩
      simpa using hc
    · obtain ⟨c, hcl, hc⟩ := List.all_eq_false.mp hp
      refine ⟨p, hpm, c, Or.inr hcl, metaReserved_iff.mp ?_⟩
      simpa using hc
  · rintro ⟨p, hpm, c, hcl, hc⟩
    refine ⟨p, hpm, ?_⟩
    rw [Bool.not_eq_true, Bool.and_eq_false_iff]
    rcases hcl with hcl | hcl
    · exact Or.inl (List.all_eq_false.mpr ⟨c, hcl, by simp [metaReserved_iff.mpr hc]⟩)
    · exact Or.inr (List.all_eq_false.mpr ⟨c, hcl, by simp [metaReserved_iff.mpr hc]⟩)

theorem encode_guard_false_iff {f : MeshFrame} :
    (fieldOK f.destination && fieldOK f.source && metaOK f.metadata) = false ↔
      ((∃ c ∈ f.destination, c = '!' ∨ c = ':' ∨ c = '|') ∨
       (∃ c ∈ f.source, c = '!' ∨ c = ':' ∨ c = '|') ∨
       (∃ p ∈ f.metadata, ∃ c, (c ∈ p.1 ∨ c ∈ p.2) ∧
         (c = '!' ∨ c = ':' ∨ c = '|' ∨ c = '=' ∨ c = ';' ∨
          c = '\x7b' ∨ c = '\x7d'))) := by
  rw [Bool.and_eq_false_iff, Bool.and_eq_false_iff, fieldOK_false_iff,
    fieldOK_false_iff, metaOK_false_iff, or_assoc]

/-- Claim C7: encode fails with an EncodeError exactly when some field — the
destination, the source, or a metadata key or value — contains a delimiter or
marker character unescaped, or the payload exceeds the maximum frame size;
in all other cases it succeeds; the error is returned to the caller in the
Except result, not swallowed. -/
theorem encode_error_characterization (maxSize : Nat) (f : MeshFrame) :
    ((∃ e, encode maxSize f = .error e) ↔
      ((∃ c ∈ f.destination, c = '!' ∨ c = ':' ∨ c = '|') ∨
       (∃ c ∈ f.source, c = '!' ∨ c = ':' ∨ c = '|') ∨
       (∃ p ∈ f.metadata, ∃ c, (c ∈ p.1 ∨ c ∈ p.2) ∧
         (c = '!' ∨ c = ':' ∨ c = '|' ∨ c = '=' ∨ c = ';' ∨
          c = '\x7b' ∨ c = '\x7d')) ∨
       maxSize < f.payload.length)) ∧
    ((∃ bs, encode maxSize f = .ok bs) ↔
      ¬ ((∃ c ∈ f.destination, c = '!' ∨ c = ':' ∨ c = '|') ∨
       (∃ c ∈ f.source, c = '!' ∨ c = ':' ∨ c = '|') ∨
       (∃ p ∈ f.metadata, ∃ c, (c ∈ p.1 ∨ c ∈ p.2) ∧
         (c = '!' ∨ c = ':' ∨ c = '|' ∨ c = '=' ∨ c = ';' ∨
          c = '\x7b' ∨ c = '\x7d')) ∨
       maxSize < f.payload.length)) := by
  have herr : (∃ e, encode maxSize f = .error e) ↔
      ((fieldOK f.destination && fieldOK f.source && metaOK f.metadata) = false ∨
        maxSize < f.payload.length) := by
    constructor
    · rintro ⟨e, he⟩
      unfold encode at he
      split at he
      · next hcond => exact Or.inl (by rwa [Bool.not_eq_true'] at hcond)
      · split at he
        · next hlt => exact Or.inr hlt
        · exact absurd he (by simp)
    · intro hdisj
      unfold encode
      by_cases hA : (fieldOK f.destination && fieldOK f.source &&
          metaOK f.metadata) = false
      · exact ⟨.invalidField, by simp [hA]⟩
      · have hA' : (fieldOK f.destination && fieldOK f.source &&
            metaOK f.metadata) = true := by
          cases hv : (fieldOK f.destination && fieldOK f.source &&
            metaOK f.metadata)
          · exact absurd hv hA
          · rfl
        have hlt : maxSize < f.payload.length := by
          rcases hdisj with hdisj | hdisj
          · exact absurd hdisj hA
          · exact hdisj
        exact ⟨.payloadTooLarge, by simp [hA', hlt]⟩
  have hok : (∃ bs, encode maxSize f = .ok bs) ↔
      ¬ ((fieldOK f.destination && fieldOK f.source && metaOK f.metadata) = false ∨
        maxSize < f.payload.length) := by
    constructor
    · rintro ⟨bs, hbs⟩ hdisj
      obtain ⟨e, he⟩ := herr.mpr hdisj
      rw [hbs] at he
      exact absurd he (by simp)
    · intro hdisj
      cases hres : encode maxSize f with
      | ok bs => exact ⟨bs, rfl⟩
      | error e => exact absurd (herr.mp ⟨e, hres⟩) hdisj
  constructor
  · rw [herr, encode_guard_false_iff, or_assoc, or_assoc]
  · rw [hok, encode_guard_false_iff, or_assoc, or_assoc]

/-! ## Incremental deframer

Modelled from the spec: `feed(bytes)` (spec section 4.1) appends incoming
bytes to an internal buffer, scans for complete preamble-to-terminator
spans, discards bytes before a recognized preamble, drops and counts
malformed spans as FrameDecodeErrors while always consuming at least the
corrupt marker bytes, and yields the decoded frames. -/

/-- Outcome of one deframer scan step: a decoded frame, a dropped malformed
span (a FrameDecodeError), or a silently skipped empty span. -/
inductive StepOut
  | frame (f : MeshFrame)
  | decodeErr
  | skip
deriving DecidableEq, Repr

/-- Modelled from the spec: one scan of the deframer buffer — discard bytes
before a preamble, locate the next marker, and attempt to parse the span
between them.  A malformed span is dropped (FrameDecodeError), consuming
the corrupt preamble marker and span but retaining the closing marker as
the next candidate preamble.  Returns `none` when no complete span is
buffered yet. -/
def scanStep (buf : List Char) : Option (StepOut × List Char) :=
  match buf.dropWhile (fun c => !(c == '!')) with
  | [] => none
  | _ :: t =>
    match findBang t with
    | none => none
    | some i =>
      if i = 0 then some (.skip, t)
      else
        match decodeContent (t.take i) with
        | some f => some (.frame f, t.drop (i + 1))
        | none => some (.decodeErr, t.drop i)

theorem scanStep_progress {buf : List Char} {o : StepOut} {rest : List Char}
    (h : scanStep buf = some (o, rest)) : rest.length < buf.length := by
  unfold scanStep at h
  split at h
  · exact absurd h (by simp)
  · next x t hdw =>
    have hlen : t.length < buf.length := by
      have h1 : (buf.dropWhile (fun c => !(c == '!'))).length ≤ buf.length :=
        (List.dropWhile_sublist _).length_le
      rw [hdw] at h1
      simp only [List.length_cons] at h1
      omega
    split at h
    · exact absurd h (by simp)
    · next i hfb =>
      split at h
      · injection h with h2
        injection h2 with h3 h4
        subst h4
        exact hlen
      · split at h
        · next f hdc =>
          injection h with h2
          injection h2 with h3 h4
          subst h4
          have hle : (t.drop (i + 1)).length ≤ t.length := by
            rw [List.length_drop]; omega
          exact Nat.lt_of_le_of_lt hle hlen
        · next hdc =>
          injection h with h2
          injection h2 with h3 h4
          subst h4
          have hle : (t.drop i).length ≤ t.length := by
            rw [List.length_drop]; omega
          exact Nat.lt_of_le_of_lt hle hlen

/-- Drain every complete span from the buffer: the decoded frames in order,
the number of FrameDecodeErrors, and the remaining buffer (bytes before a
recognized preamble already discarded). -/
def deframeLoop (buf : List Char) : List MeshFrame × Nat × List Char :=
  match h : scanStep buf with
  | none => ([], 0, buf.dropWhile (fun c => !(c == '!')))
  | some (o, rest) =>
    let r := deframeLoop rest
    match o with
    | .frame f => (f :: r.1, r.2.1, r.2.2)
    | .decodeErr => (r.1, r.2.1 + 1, r.2.2)
    | .skip => r
termination_by buf.length
decreasing_by exact scanStep_progress h

/-- Modelled from the spec: the stateful incremental deframer `feed` —
append the arrived chunk to the buffer and process it. -/
def feed (buf input : List Char) : List MeshFrame × Nat × List Char :=
  deframeLoop (buf ++ input)

theorem deframeLoop_none {buf : List Char} (h : scanStep buf = none) :
    deframeLoop buf = ([], 0, buf.dropWhile (fun c => !(c == '!'))) := by
  rw [deframeLoop]
  split
  · rfl
  · next o rest heq => rw [h] at heq; exact absurd heq (by simp)

theorem deframeLoop_frame {buf : List Char} {f : MeshFrame} {rest : List Char}
    (h : scanStep buf = some (.frame f, rest)) :
    deframeLoop buf = (f :: (deframeLoop rest).1,
      (deframeLoop rest).2.1, (deframeLoop rest).2.2) := by
  rw [deframeLoop]
  split
  · next heq => rw [h] at heq; exact absurd heq (by simp)
  · next o rest' heq =>
    rw [h] at heq
    injection heq with h2
    injection h2 with h3 h4
    subst h4
    subst h3
    rfl

theorem deframeLoop_err {buf : List Char} {rest : List Char}
    (h : scanStep buf = some (.decodeErr, rest)) :
    deframeLoop buf = ((deframeLoop rest).1,
      (deframeLoop rest).2.1 + 1, (deframeLoop rest).2.2) := by
  rw [deframeLoop]
  split
  · next heq => rw [h] at heq; exact absurd heq (by simp)
  · next o rest' heq =>
    rw [h] at heq
    injection heq with h2
    injection h2 with h3 h4
    subst h4
    subst h3
    rfl

theorem deframeLoop_skip {buf : List Char} {rest : List Char}
    (h : scanStep buf = some (.skip, rest)) :
    deframeLoop buf = deframeLoop rest := by
  rw [deframeLoop]
  split
  · next heq => rw [h] at heq; exact absurd heq (by simp)
  · next o rest' heq =>
    rw [h] at heq
    injection heq with h2
    injection h2 with h3 h4
    subst h4
    subst h3
    rfl

theorem dropWhile_idem (p : Char → Bool) (l : List Char) :
    (l.dropWhile p).dropWhile p = l.dropWhile p := by
  induction l with
  | nil => rfl
  | cons x t ih =>
    by_cases hx : p x = true
    · simp [List.dropWhile_cons, hx, ih]
    · simp [List.dropWhile_cons, hx]

theorem scanStep_dropWhile (buf : List Char) :
    scanStep (buf.dropWhile (fun c => !(c == '!'))) = scanStep buf := by
  unfold scanStep
  rw [dropWhile_idem]

theorem dropWhile_not_bang {g : List Char} (rest : List Char) (hg : '!' ∉ g) :
    (g ++ '!' :: rest).dropWhile (fun c => !(c == '!')) = '!' :: rest := by
  induction g with
  | nil => simp [List.dropWhile_cons]
  | cons x xs ih =>
    have hx : x ≠ '!' := fun hxc => hg (hxc ▸ List.mem_cons_self x xs)
    have hxs : '!' ∉ xs := fun hm => hg (List.mem_cons_of_mem x hm)
    simp [List.dropWhile_cons, hx, ih hxs]

theorem scanStep_nil : scanStep [] = none := rfl

theorem scanStep_err {g c rest : List Char} (hg : '!' ∉ g) (hc : '!' ∉ c)
    (hcn : c ≠ []) (hbad : decodeContent c = none) :
    scanStep (g ++ '!' :: (c ++ '!' :: rest)) =
      some (.decodeErr, '!' :: rest) := by
  unfold scanStep
  rw [dropWhile_not_bang _ hg]
  have hlen0 : c.length ≠ 0 := fun h => hcn (List.length_eq_zero.mp h)
  simp [findBang_append _ hc, hlen0, List.take_left, List.drop_left, hbad]

theorem scanStep_skip (rest : List Char) :
    scanStep ('!' :: '!' :: rest) = some (.skip, '!' :: rest) := by
  unfold scanStep
  simp [List.dropWhile_cons, findBang]

theorem scanStep_frame {content rest : List Char} {f : MeshFrame}
    (hcc : '!' ∉ content) (hcn : content ≠ [])
    (hgood : decodeContent content = some f) :
    scanStep ('!' :: (content ++ '!' :: rest)) = some (.frame f, rest) := by
  unfold scanStep
  have hdrop : ('!' :: (content ++ '!' :: rest)).dropWhile
      (fun c => !(c == '!')) = '!' :: (content ++ '!' :: rest) := by
    simp [List.dropWhile_cons]
  rw [hdrop]
  have hlen0 : content.length ≠ 0 := fun h => hcn (List.length_eq_zero.mp h)
  have hdropLen : (content ++ '!' :: rest).drop (content.length + 1) = rest := by
    rw [show content.length + 1 = (content ++ ['!']).length from by simp,
      show content ++ '!' :: rest = (content ++ ['!']) ++ rest from by simp,
      List.drop_left]
  simp [findBang_append _ hcc, hlen0, List.take_left, hgood, hdropLen]

theorem contentOf_ne_nil (f : MeshFrame) : contentOf f ≠ [] := by
  simp [contentOf]

theorem bang_not_mem_contentOf {f : MeshFrame}
    (hd : fieldOK f.destination = true) (hs : fieldOK f.source = true)
    (hm : metaOK f.metadata = true) (hp : payloadClean f.payload = true) :
    '!' ∉ contentOf f := by
  have hp' : f.payload.all (fun c => !reserved c) = true := hp
  intro hmem
  unfold contentOf at hmem
  rcases List.mem_append.mp hmem with h1 | h2
  · rcases List.mem_append.mp h1 with h3 | h4
    · rcases List.mem_append.mp h3 with h5 | h6
      · rcases List.mem_append.mp h5 with h7 | h8
        · exact not_mem_of_fieldOK hd (by decide) h7
        · rcases List.mem_cons.mp h8 with h9 | h10
          · exact absurd h9 (by decide)
          · exact not_mem_of_fieldOK hs (by decide) h10
      · rcases List.mem_cons.mp h6 with h9 | h10
        · exact absurd h9 (by decide)
        · exact not_mem_of_fieldOK (renderType_fieldOK f.packetType)
            (by decide) h10
    · rcases List.mem_cons.mp h4 with h9 | h10
      · exact absurd h9 (by decide)
      · exact not_mem_serializeMeta hm (by decide) h10
  · rcases List.mem_cons.mp h2 with h9 | h10
    · exact absurd h9 (by decide)
    · exact not_mem_of_all_not hp' (by decide) h10

/-- Claim C2: feeding the deframer a corrupted frame (arbitrary non-marker
garbage before its preamble, a span that fails to parse) followed by a
complete valid frame yields exactly the valid frame: the corrupt span is
dropped and counted as one FrameDecodeError, the bytes before the recognized
preamble are discarded, the valid frame is not lost, and the buffer is left
empty. -/
theorem deframer_resync (g c : List Char) (maxSize : Nat) (f : MeshFrame)
    (bs : List Char) (hg : '!' ∉ g) (hc : '!' ∉ c) (hcn : c ≠ [])
    (hbad : decodeContent c = none)
    (hd : fieldOK f.destination = true) (hs : fieldOK f.source = true)
    (hm : metaOK f.metadata = true) (hp : payloadClean f.payload = true)
    (henc : encode maxSize f = .ok bs) :
    feed [] (g ++ '!' :: c ++ '!' :: bs) = ([f], 1, []) := by
  have hbs : bs = wireOf f := encode_ok_eq henc
  subst hbs
  have hcc : '!' ∉ contentOf f := bang_not_mem_contentOf hd hs hm hp
  have hccn : contentOf f ≠ [] := contentOf_ne_nil f
  have hshape : ([] : List Char) ++ (g ++ '!' :: c ++ '!' :: wireOf f) =
      g ++ '!' :: (c ++ '!' :: wireOf f) := by simp [List.append_assoc]
  unfold feed
  rw [hshape]
  rw [deframeLoop_err (scanStep_err hg hc hcn hbad)]
  have h2 : ('!' : Char) :: wireOf f = '!' :: '!' :: (contentOf f ++ ['!']) := by
    simp [wireOf]
  rw [h2, deframeLoop_skip (scanStep_skip _)]
  have h3 : ('!' : Char) :: (contentOf f ++ ['!']) =
      '!' :: (contentOf f ++ '!' :: []) := rfl
  rw [h3, deframeLoop_frame
    (scanStep_frame hcc hccn (decodeContent_contentOf hd hs hm))]
  rw [deframeLoop_none scanStep_nil]
  rfl

/-- Witness for claim C2: garbage, a corrupt span, then a valid DATA frame. -/
theorem deframer_resync_witness :
    feed [] (['x'] ++ '!' :: ['z'] ++ '!' ::
      ['!', 'a', ':', 'b', ':', 'D', 'A', 'T', 'A', '|', '\x7b', '\x7d', '|', 'p', '!']) =
      ([MeshFrame.mk ['a'] ['b'] PacketType.DATA [] ['p']], 1, []) :=
  deframer_resync ['x'] ['z'] 16 (MeshFrame.mk ['a'] ['b'] PacketType.DATA [] ['p'])
    ['!', 'a', ':', 'b', ':', 'D', 'A', 'T', 'A', '|', '\x7b', '\x7d', '|', 'p', '!']
    (by decide) (by decide) (by decide) (by rfl)
    (by decide) (by decide) (by decide) (by decide) (by rfl)

theorem deframeLoop_quiescent_aux :
    ∀ (n : Nat) (buf : List Char), buf.length ≤ n →
      scanStep (deframeLoop buf).2.2 = none := by
  intro n
  induction n with
  | zero =>
    intro buf hbuf
    have hnil : buf = [] := List.length_eq_zero.mp (Nat.le_zero.mp hbuf)
    subst hnil
    rw [deframeLoop_none scanStep_nil]
    rfl
  | succ n ih =>
    intro buf hbuf
    cases h : scanStep buf with
    | none =>
      rw [deframeLoop_none h]
      rw [scanStep_dropWhile]
      exact h
    | some pr =>
      obtain ⟨o, rest⟩ := pr
      have hlt : rest.length < buf.length := scanStep_progress h
      have hrest : rest.length ≤ n := by omega
      cases o with
      | frame f => rw [deframeLoop_frame h]; exact ih rest hrest
      | decodeErr => rw [deframeLoop_err h]; exact ih rest hrest
      | skip => rw [deframeLoop_skip h]; exact ih rest hrest

theorem deframeLoop_quiescent (buf : List Char) :
    scanStep (deframeLoop buf).2.2 = none :=
  deframeLoop_quiescent_aux buf.length buf (Nat.le_refl _)

/-- Claim C8: the deframer never wedges on any finite input: `feed` is a
total function yielding a finite list of frames, every successful scan step
consumes at least one buffered byte (so malformed spans always make forward
progress past at least the corrupt marker bytes), and after `feed` returns
no complete span remains unconsumed in the buffer. -/
theorem deframer_progress_no_wedge :
    (∀ (buf : List Char) (o : StepOut) (rest : List Char),
      scanStep buf = some (o, rest) → rest.length < buf.length) ∧
    (∀ buf input : List Char, scanStep (feed buf input).2.2 = none) :=
  ⟨fun _ _ _ h => scanStep_progress h,
   fun buf input => deframeLoop_quiescent (buf ++ input)⟩

/-- Witness for claim C8: a concrete scan step consumes a byte, and a
concrete feed leaves a quiescent buffer. -/
theorem deframer_progress_no_wedge_witness :
    (['!'] : List Char).length < (['!', '!'] : List Char).length ∧
    scanStep (feed [] ['x', '!', 'a', '!']).2.2 = none :=
  ⟨deframer_progress_no_wedge.1 ['!', '!'] .skip ['!'] (by rfl),
   deframer_progress_no_wedge.2 [] ['x', '!', 'a', '!']⟩

/-! ## Node Address Table

Modelled from the spec: the daemon's node mapping (spec section 4.2) —
bidirectional lookup, learn with conflict rejection, stale eviction, and
static configuration loading. -/

/-- Origin tag distinguishing configuration-sourced from discovery-sourced
mappings. -/
inductive Origin
  | STATIC
  | LEARNED
deriving DecidableEq, Repr

/-- One mapping entry of the Node Address Table. -/
structure NodeAddressEntry where
  node_id : String
  ip_address : String
  origin : Origin
  last_seen : Nat
deriving DecidableEq, Repr

/-- The Node Address Table: a list of entries. -/
abbrev AddrTable := List NodeAddressEntry

/-- Modelled from the spec: resolve_ip(node_id) — the ip of the entry owning
the node id, or NotFound (none). -/
def resolve_ip (t : AddrTable) (nid : String) : Option String :=
  (t.find? (fun e => e.node_id == nid)).map (fun e => e.ip_address)

/-- Modelled from the spec: resolve_node(ip_address) — the node id of the
entry owning the address, or NotFound (none). -/
def resolve_node (t : AddrTable) (ip : String) : Option String :=
  (t.find? (fun e => e.ip_address == ip)).map (fun e => e.node_id)

/-- Result of a learn call: applied, or rejected as a MappingConflict. -/
inductive LearnResult
  | applied
  | mappingConflict
deriving DecidableEq, Repr

/-- Does some STATIC entry already own the node id or the address? -/
def staticOwns (t : AddrTable) (nid ip : String) : Bool :=
  t.any (fun e => e.origin == Origin.STATIC &&
    (e.node_id == nid || e.ip_address == ip))

/-- Modelled from the spec: learn(node_id, ip_address, timestamp) inserts or
refreshes a LEARNED entry; when a STATIC entry already owns the node_id or
the ip_address the learn is rejected as a MappingConflict, not applied. -/
def learn (t : AddrTable) (nid ip : String) (ts : Nat) :
    LearnResult × AddrTable :=
  if staticOwns t nid ip then (.mappingConflict, t)
  else (.applied,
    ⟨nid, ip, .LEARNED, ts⟩ ::
      t.filter (fun e => !(e.node_id == nid || e.ip_address == ip)))

/-- Modelled from the spec: evict_stale(now, ttl) removes LEARNED entries
whose last_seen is older than the ttl window; STATIC entries never expire. -/
def evict_stale (t : AddrTable) (now ttl : Nat) : AddrTable :=
  t.filter (fun e => e.origin == Origin.STATIC ||
    decide (now - e.last_seen ≤ ttl))

/-- Modelled from the spec: load the static node/IP configuration table:
each pair becomes a STATIC entry unless an existing entry already owns its
node id or its address (so reloading is idempotent and conflict-free). -/
def loadStatic (cfg : List (String × String)) (t : AddrTable) : AddrTable :=
  cfg.foldl (fun acc p =>
    if acc.any (fun e => e.node_id == p.1 || e.ip_address == p.2) then acc
    else ⟨p.1, p.2, .STATIC, 0⟩ :: acc) t

/-- Table invariant: at most one entry per node_id and per ip_address. -/
def tableInv (t : AddrTable) : Prop :=
  (t.map (fun e => e.node_id)).Nodup ∧ (t.map (fun e => e.ip_address)).Nodup

/-- Claim C3: when a STATIC entry already owns the node_id or the ip_address,
learn reports MappingConflict and the table after the call is exactly the
table before it — nothing is overwritten. -/
theorem learn_conflict_rejected (t : AddrTable) (nid ip : String) (ts : Nat)
    (h : ∃ e ∈ t, e.origin = Origin.STATIC ∧
      (e.node_id = nid ∨ e.ip_address = ip)) :
    (learn t nid ip ts).1 = LearnResult.mappingConflict ∧
    (learn t nid ip ts).2 = t := by
  have hb : staticOwns t nid ip = true := by
    obtain ⟨e, he, ho, hni⟩ := h
    refine List.any_eq_true.mpr ⟨e, he, ?_⟩
    rcases hni with h1 | h1 <;> simp [ho, h1]
  simp [learn, hb]

/-- Witness for claim C3: a learn colliding with a STATIC entry. -/
theorem learn_conflict_rejected_witness :
    (learn [⟨"node-A", "10.0.0.2", .STATIC, 0⟩] "node-A" "10.0.0.9" 5).1 =
      LearnResult.mappingConflict ∧
    (learn [⟨"node-A", "10.0.0.2", .STATIC, 0⟩] "node-A" "10.0.0.9" 5).2 =
      [⟨"node-A", "10.0.0.2", .STATIC, 0⟩] :=
  learn_conflict_rejected [⟨"node-A", "10.0.0.2", .STATIC, 0⟩] "node-A"
    "10.0.0.9" 5 ⟨⟨"node-A", "10.0.0.2", .STATIC, 0⟩, by simp, rfl, Or.inl rfl⟩

theorem filtered_inv {t : AddrTable} (hinv : tableInv t) (p : NodeAddressEntry → Bool) :
    tableInv (t.filter p) :=
  ⟨hinv.1.sublist ((List.filter_sublist t).map _),
   hinv.2.sublist ((List.filter_sublist t).map _)⟩

theorem learn_preserves_inv (t : AddrTable) (nid ip : String) (ts : Nat)
    (hinv : tableInv t) : tableInv (learn t nid ip ts).2 := by
  unfold learn
  split
  · exact hinv
  · have hfil := filtered_inv hinv
      (fun e => !(e.node_id == nid || e.ip_address == ip))
    constructor
    · simp only [List.map_cons]
      refine List.nodup_cons.mpr ⟨?_, hfil.1⟩
      intro hmem
      obtain ⟨e, he, henid⟩ := List.mem_map.mp hmem
      have hpe := List.of_mem_filter he
      simp only [Bool.not_eq_true', Bool.or_eq_false_iff, beq_eq_false_iff_ne,
        ne_eq] at hpe
      exact hpe.1 henid
    · simp only [List.map_cons]
      refine List.nodup_cons.mpr ⟨?_, hfil.2⟩
      intro hmem
      obtain ⟨e, he, heip⟩ := List.mem_map.mp hmem
      have hpe := List.of_mem_filter he
      simp only [Bool.not_eq_true', Bool.or_eq_false_iff, beq_eq_false_iff_ne,
        ne_eq] at hpe
      exact hpe.2 heip

theorem loadStatic_preserves_inv (cfg : List (String × String)) :
    ∀ t : AddrTable, tableInv t → tableInv (loadStatic cfg t) := by
  induction cfg with
  | nil => intro t h; exact h
  | cons p ps ih =>
    intro t h
    have hstep : tableInv (if t.any
        (fun e => e.node_id == p.1 || e.ip_address == p.2) then t
      else ⟨p.1, p.2, .STATIC, 0⟩ :: t) := by
      split
      · exact h
      · next hany =>
        have hany' : ∀ e ∈ t, ¬(e.node_id == p.1 || e.ip_address == p.2) = true :=
          fun e he hcontra => hany (List.any_eq_true.mpr ⟨e, he, hcontra⟩)
        constructor
        · simp only [List.map_cons]
          refine List.nodup_cons.mpr ⟨?_, h.1⟩
          intro hmem
          obtain ⟨e, he, heq⟩ := List.mem_map.mp hmem
          exact hany' e he (by simp [heq])
        · simp only [List.map_cons]
          refine List.nodup_cons.mpr ⟨?_, h.2⟩
          intro hmem
          obtain ⟨e, he, heq⟩ := List.mem_map.mp hmem
          exact hany' e he (by simp [heq])
    exact ih _ hstep

theorem resolve_ip_of_mem {t : AddrTable} (hinv : tableInv t)
    {e : NodeAddressEntry} (he : e ∈ t) :
    resolve_ip t e.node_id = some e.ip_address := by
  unfold resolve_ip
  cases hf : t.find? (fun x => x.node_id == e.node_id) with
  | none =>
    have := List.find?_eq_none.mp hf e he
    simp at this
  | some e' =>
    have he' := List.mem_of_find?_eq_some hf
    have hp := List.find?_some hf
    simp only [beq_iff_eq] at hp
    have : e' = e := List.inj_on_of_nodup_map hinv.1 he' he hp
    subst this
    rfl

theorem resolve_node_of_mem {t : AddrTable} (hinv : tableInv t)
    {e : NodeAddressEntry} (he : e ∈ t) :
    resolve_node t e.ip_address = some e.node_id := by
  unfold resolve_node
  cases hf : t.find? (fun x => x.ip_address == e.ip_address) with
  | none =>
    have := List.find?_eq_none.mp hf e he
    simp at this
  | some e' =>
    have he' := List.mem_of_find?_eq_some hf
    have hp := List.find?_some hf
    simp only [beq_iff_eq] at hp
    have : e' = e := List.inj_on_of_nodup_map hinv.2 he' he hp
    subst this
    rfl

theorem resolve_ip_some {t : AddrTable} {nid ip : String}
    (h : resolve_ip t nid = some ip) :
    ∃ e ∈ t, e.node_id = nid ∧ e.ip_address = ip := by
  unfold resolve_ip at h
  cases hf : t.find? (fun e => e.node_id == nid) with
  | none => rw [hf] at h; exact absurd h (by simp)
  | some e =>
    rw [hf] at h
    simp only [Option.map_some', Option.some.injEq] at h
    have he := List.mem_of_find?_eq_some hf
    have hp := List.find?_some hf
    simp only [beq_iff_eq] at hp
    exact ⟨e, he, hp, h⟩

theorem resolve_node_some {t : AddrTable} {nid ip : String}
    (h : resolve_node t ip = some nid) :
    ∃ e ∈ t, e.node_id = nid ∧ e.ip_address = ip := by
  unfold resolve_node at h
  cases hf : t.find? (fun e => e.ip_address == ip) with
  | none => rw [hf] at h; exact absurd h (by simp)
  | some e =>
    rw [hf] at h
    simp only [Option.map_some', Option.some.injEq] at h
    have he := List.mem_of_find?_eq_some hf
    have hp := List.find?_some hf
    simp only [beq_iff_eq] at hp
    exact ⟨e, he, h, hp⟩

/-- Claim C4: loading static entries, learn, and evict_stale all preserve the
invariant of at most one entry per node_id and per ip_address; consequently
the two lookups are mutually inverse whenever both succeed:
resolve_node(resolve_ip(node_id)) == node_id and
resolve_ip(resolve_node(ip)) == ip. -/
theorem table_invariant_bijective :
    (∀ (cfg : List (String × String)) (t : AddrTable),
      tableInv t → tableInv (loadStatic cfg t)) ∧
    (∀ (t : AddrTable) (nid ip : String) (ts : Nat),
      tableInv t → tableInv (learn t nid ip ts).2) ∧
    (∀ (t : AddrTable) (now ttl : Nat),
      tableInv t → tableInv (evict_stale t now ttl)) ∧
    (∀ (t : AddrTable) (nid ip : String), tableInv t →
      resolve_ip t nid = some ip → resolve_node t ip = some nid) ∧
    (∀ (t : AddrTable) (nid ip : String), tableInv t →
      resolve_node t ip = some nid → resolve_ip t nid = some ip) := by
  refine ⟨fun cfg t h => loadStatic_preserves_inv cfg t h,
    fun t nid ip ts h => learn_preserves_inv t nid ip ts h,
    fun t now ttl h => filtered_inv h _, ?_, ?_⟩
  · intro t nid ip hinv h
    obtain ⟨e, he, hn, hi⟩ := resolve_ip_some h
    have := resolve_node_of_mem hinv he
    rw [hn, hi] at this
    exact this
  · intro t nid ip hinv h
    obtain ⟨e, he, hn, hi⟩ := resolve_node_some h
    have := resolve_ip_of_mem hinv he
    rw [hn, hi] at this
    exact this

/-- Witness for claim C4: preservation and inverse lookups on a concrete
table. -/
theorem table_invariant_bijective_witness :
    tableInv (learn [⟨"node-A", "10.0.0.2", .STATIC, 0⟩] "node-B" "10.0.0.3" 7).2 ∧
    resolve_node [⟨"node-A", "10.0.0.2", .STATIC, 0⟩] "10.0.0.2" = some "node-A" :=
  ⟨table_invariant_bijective.2.1 [⟨"node-A", "10.0.0.2", .STATIC, 0⟩]
      "node-B" "10.0.0.3" 7 (by constructor <;> decide),
    table_invariant_bijective.2.2.2.1 [⟨"node-A", "10.0.0.2", .STATIC, 0⟩]
      "node-A" "10.0.0.2" (by constructor <;> decide) (by decide)⟩

/-! ## Bridge dispatcher paths (claim C6) -/

/-- Effects of handling one unit of traffic: payloads written to the virtual
interface, frames written to the serial link, packets dropped, whether the
session must stop, and the address table afterwards. -/
structure Outcome where
  tunWrites : List (List Char)
  serialWrites : List (List Char)
  dropped : Nat
  fatal : Bool
  table : AddrTable
deriving DecidableEq, Repr

/-- Modelled from the spec: the inbound path — a decoded DATA or TEXT frame
has its source resolved via the Node Address Table; an unresolved source
means the frame is dropped and counted, never fatal; a resolved payload is
written to the virtual interface; NODE_INFO frames are routed to the
Discovery Protocol, which learns the announced node/IP pair. -/
def handleInbound (t : AddrTable) (now : Nat) (f : MeshFrame) : Outcome :=
  match f.packetType with
  | .NODE_INFO =>
    ⟨[], [], 0, false,
      (learn t (String.mk f.source) (String.mk f.payload) now).2⟩
  | _ =>
    match resolve_ip t (String.mk f.source) with
    | none => ⟨[], [], 1, false, t⟩
    | some _ => ⟨[f.payload], [], 0, false, t⟩

/-- An IP packet leaving the virtual interface: destination IP plus bytes. -/
structure IpPacket where
  dst : String
  bytes : List Char
deriving DecidableEq, Repr

/-- Modelled from the spec: the outbound path — the destination IP is
resolved to a node id; an unresolved destination means the packet is dropped
and counted with no serial write, never fatal; otherwise a DATA frame from
the local node is encoded and written to the serial link. -/
def handleOutbound (maxSize : Nat) (localId : List Char) (t : AddrTable)
    (pkt : IpPacket) : Outcome :=
  match resolve_node t pkt.dst with
  | none => ⟨[], [], 1, false, t⟩
  | some nid =>
    match encode maxSize ⟨nid.toList, localId, .DATA, [], pkt.bytes⟩ with
    | .ok bs => ⟨[], [bs], 0, false, t⟩
    | .error _ => ⟨[], [], 1, false, t⟩

/-- Claim C6: an inbound DATA or TEXT frame whose source node has no mapping,
and an outbound IP packet whose destination IP has no mapping, are each
dropped with the drop counter incremented by one, nothing written to either
transport, the table unchanged, and the session not terminated —
UnresolvedAddress is never fatal. -/
theorem unresolved_drops (t : AddrTable) (now maxSize : Nat)
    (localId : List Char) (f : MeshFrame) (pkt : IpPacket)
    (hty : f.packetType = .DATA ∨ f.packetType = .TEXT)
    (hsrc : resolve_ip t (String.mk f.source) = none)
    (hdst : resolve_node t pkt.dst = none) :
    handleInbound t now f = ⟨[], [], 1, false, t⟩ ∧
    handleOutbound maxSize localId t pkt = ⟨[], [], 1, false, t⟩ := by
  constructor
  · rcases hty with h | h <;> simp [handleInbound, h, hsrc]
  · simp [handleOutbound, hdst]

/-- Witness for claim C6 on an empty table. -/
theorem unresolved_drops_witness :
    handleInbound [] 0 (MeshFrame.mk ['d'] ['s'] PacketType.DATA [] ['p']) =
      ⟨[], [], 1, false, []⟩ ∧
    handleOutbound 16 ['l'] [] (IpPacket.mk "10.0.0.9" ['p']) =
      ⟨[], [], 1, false, []⟩ :=
  unresolved_drops [] 0 16 ['l']
    (MeshFrame.mk ['d'] ['s'] PacketType.DATA [] ['p'])
    (IpPacket.mk "10.0.0.9" ['p']) (Or.inl rfl) (by rfl) (by rfl)

/-! ## Discovery Protocol (claim C9) -/

/-- The discovery state machine's resting phase; emission is atomic, so the
machine always rests in IDLE. -/
inductive DiscPhase
  | IDLE
deriving DecidableEq, Repr

/-- Modelled from the spec: discovery timer state — the next firing deadline
and the resting phase. -/
structure DiscoveryState where
  deadline : Nat
  phase : DiscPhase
deriving DecidableEq, Repr

/-- The broadcast destination sentinel token. -/
def broadcastDest : List Char := "BROADCAST".toList

/-- Modelled from the spec: the NODE_INFO broadcast MeshFrame advertising
this node's own address, fire-and-forget. -/
def selfAnnounce (localId ownIp : List Char) : MeshFrame :=
  ⟨broadcastDest, localId, .NODE_INFO, [], ownIp⟩

/-- Modelled from the spec: one simulated-clock tick — when the deadline is
reached, emit exactly one NODE_INFO broadcast, advance the deadline by the
configured interval, and return to IDLE; otherwise do nothing. -/
def discTick (d : Nat) (localId ownIp : List Char) (now : Nat)
    (s : DiscoveryState) : DiscoveryState × List MeshFrame :=
  if s.deadline ≤ now then
    (⟨s.deadline + d, .IDLE⟩, [selfAnnounce localId ownIp])
  else (s, [])

/-- Run the simulated clock one tick per time unit up to time T, with the
first deadline one interval after time zero, collecting emitted frames. -/
def discRun (d : Nat) (localId ownIp : List Char) :
    Nat → DiscoveryState × List MeshFrame
  | 0 => (⟨d, .IDLE⟩, [])
  | T + 1 =>
    let r := discRun d localId ownIp T
    let s := discTick d localId ownIp (T + 1) r.1
    (s.1, r.2 ++ s.2)

theorem discRun_spec (d : Nat) (localId ownIp : List Char) (hd : 0 < d) :
    ∀ T : Nat, (discRun d localId ownIp T).1.deadline = d * (T / d) + d ∧
      (discRun d localId ownIp T).2 =
        List.replicate (T / d) (selfAnnounce localId ownIp) ∧
      (discRun d localId ownIp T).1.phase = DiscPhase.IDLE := by
  intro T
  induction T with
  | zero => simp [discRun]
  | succ T ih =>
    obtain ⟨hdl, hfr, hph⟩ := ih
    have hmod := Nat.div_add_mod T d
    have hrlt : T % d < d := Nat.mod_lt T hd
    by_cases hcase : T % d + 1 = d
    · have hTd : T + 1 = d * (T / d + 1) := by
        have hexp : d * (T / d + 1) = d * (T / d) + d := by ring
        omega
      have hdiv : (T + 1) / d = T / d + 1 := by
        rw [hTd, Nat.mul_div_cancel_left _ hd]
      have hle : d * (T / d) + d ≤ T + 1 := by omega
      have htick : discTick d localId ownIp (T + 1) (discRun d localId ownIp T).1 =
          (⟨d * (T / d) + d + d, .IDLE⟩, [selfAnnounce localId ownIp]) := by
        simp [discTick, hdl, hle]
      simp only [discRun]
      rw [htick, hfr, hdiv]
      refine ⟨by ring, by rw [List.replicate_succ'], by simp⟩
    · have hlt : T % d + 1 < d := by omega
      have hnofire : ¬(d * (T / d) + d ≤ T + 1) := by omega
      have htick : discTick d localId ownIp (T + 1) (discRun d localId ownIp T).1 =
          ((discRun d localId ownIp T).1, []) := by
        simp [discTick, hdl, hnofire]
      have hdiv : (T + 1) / d = T / d := by
        have h1 : T + 1 = d * (T / d) + (T % d + 1) := by omega
        rw [h1, Nat.mul_add_div hd, Nat.div_eq_of_lt hlt]
        omega
      simp only [discRun]
      rw [htick, hfr, hdiv, hdl]
      exact ⟨rfl, by simp, by simp [hph]⟩

/-- Claim C9: under a simulated clock with a strictly positive configured
interval d, over a horizon of n whole intervals the Discovery Protocol emits
exactly one broadcast NODE_INFO MeshFrame per elapsed interval — n frames,
no more, no fewer — each advertising the local node's own address to the
broadcast destination, and the machine rests in IDLE after each emission; no
acknowledgement is awaited (the tick consumes no inbound data). -/
theorem discovery_one_per_interval (d n : Nat) (localId ownIp : List Char)
    (hd : 0 < d) :
    (discRun d localId ownIp (n * d)).2 =
      List.replicate n (selfAnnounce localId ownIp) ∧
    (selfAnnounce localId ownIp).packetType = PacketType.NODE_INFO ∧
    (selfAnnounce localId ownIp).destination = broadcastDest ∧
    (selfAnnounce localId ownIp).payload = ownIp ∧
    (discRun d localId ownIp (n * d)).1.phase = DiscPhase.IDLE := by
  obtain ⟨hdl, hfr, hph⟩ := discRun_spec d localId ownIp hd (n * d)
  have hdiv : n * d / d = n := Nat.mul_div_cancel n hd
  rw [hdiv] at hfr
  exact ⟨hfr, rfl, rfl, rfl, hph⟩

/-- Witness for claim C9: three intervals of length two. -/
theorem discovery_one_per_interval_witness :
    (discRun 2 ['l'] ['i'] (3 * 2)).2 =
      List.replicate 3 (selfAnnounce ['l'] ['i']) ∧
    (selfAnnounce ['l'] ['i']).packetType = PacketType.NODE_INFO ∧
    (selfAnnounce ['l'] ['i']).destination = broadcastDest ∧
    (selfAnnounce ['l'] ['i']).payload = ['i'] ∧
    (discRun 2 ['l'] ['i'] (3 * 2)).1.phase = DiscPhase.IDLE :=
  discovery_one_per_interval 2 3 ['l'] ['i'] (by decide)

/-! ## Kernel module, embedded from src/kernel/heltec.c (claim C10) -/

/-- USB device identity as matched by the kernel id table. -/
structure UsbDeviceId where
  idVendor : Nat
  idProduct : Nat
deriving DecidableEq, Repr

/-- heltec.c: `#define HELTEC_VENDOR_ID 0x303A`. -/
def HELTEC_VENDOR_ID : Nat := 0x303A

/-- heltec.c: `#define HELTEC_PRODUCT_ID 0x80C4`. -/
def HELTEC_PRODUCT_ID : Nat := 0x80C4

/-- heltec.c: the id table `heltec_table` — a single USB_DEVICE(vendor,
product) entry; the terminating null entry of the C array is a sentinel, not
a match entry. -/
def heltec_table : List UsbDeviceId :=
  [⟨HELTEC_VENDOR_ID, HELTEC_PRODUCT_ID⟩]

/-- USB core matching discipline for USB_DEVICE table entries: vendor id and
product id must both match. -/
def usb_id_match (tbl : List UsbDeviceId) (dev : UsbDeviceId) : Bool :=
  tbl.any (fun e => e.idVendor == dev.idVendor && e.idProduct == dev.idProduct)

/-- heltec.c `heltec_probe`: prints one log line with the vendor/product pair
and returns 0 unconditionally; no other effect. -/
def heltec_probe (dev : UsbDeviceId) : List (Nat × Nat) × Int :=
  ([(dev.idVendor, dev.idProduct)], 0)

/-- Claim C10: the driver's id table matches exactly the devices with vendor
id 0x303A and product id 0x80C4, no others; and heltec_probe returns 0 for
every device, accepting every matching device unconditionally with no effect
beyond the single log line. -/
theorem heltec_probe_accepts_all :
    (∀ dev : UsbDeviceId, usb_id_match heltec_table dev = true ↔
      (dev.idVendor = 0x303A ∧ dev.idProduct = 0x80C4)) ∧
    (∀ dev : UsbDeviceId, (heltec_probe dev).2 = 0 ∧
      (heltec_probe dev).1 = [(dev.idVendor, dev.idProduct)]) := by
  constructor
  · intro dev
    simp only [usb_id_match, heltec_table, HELTEC_VENDOR_ID,
      HELTEC_PRODUCT_ID, List.any_cons, List.any_nil, Bool.or_false,
      Bool.and_eq_true, beq_iff_eq]
    omega
  · intro dev
    exact ⟨rfl, rfl⟩

end MeshDriver
